import Mathlib

/-!
Verification of the CifCaf pose decoder (`cpp/include/openpifpaf/decoder/cifcaf.hpp`).

The header declares the data model (`Joint`, `FrontierEntry`, the frontier
priority queue with `frontier_compare`, the `in_frontier` visited set) and the
decoding operations (`call`, `_grow`, `_frontier_add_from`, `_connection_value`,
`_force_complete`).  Structures and the comparator are embedded directly from
the header; the operation bodies are not part of the visible interface file and
are modelled from the specification (each such definition carries a
`Modelled from the spec:` doc comment).  Machine floating point (`double`) is
idealized as `ℚ`; all claims under study are order/threshold/structural
properties that do not depend on rounding.
-/

namespace OpenPifPaf

/-- `Joint` from the header: `double v, x, y, s`. -/
structure Joint where
  v : ℚ
  x : ℚ
  y : ℚ
  s : ℚ
deriving Repr, DecidableEq

/-- The default constructor `Joint(void) : v(0.0), x(0.0), y(0.0), s(0.0)`. -/
def defaultJoint : Joint := ⟨0, 0, 0, 0⟩

/-- Executable negation on `ℚ`. -/
def qneg (a : ℚ) : ℚ := mkRat (-a.num) a.den

/-- Executable addition on `ℚ`. -/
def qadd (a b : ℚ) : ℚ := mkRat (a.num * b.den + b.num * a.den) (a.den * b.den)

/-- Executable subtraction on `ℚ`. -/
def qsub (a b : ℚ) : ℚ := qadd a (qneg b)

/-- Executable multiplication on `ℚ`. -/
def qmul (a b : ℚ) : ℚ := mkRat (a.num * b.num) (a.den * b.den)

/-- Executable division on `ℚ` (`0` when the divisor is `0`). -/
def qdiv (a b : ℚ) : ℚ :=
  mkRat (if 0 ≤ b.num then a.num * b.den else -(a.num * b.den))
    (a.den * b.num.natAbs)

/-- Executable sum of a list of rationals. -/
def qsum : List ℚ → ℚ
  | [] => 0
  | x :: xs => qadd x (qsum xs)

/-- `FrontierEntry` from the header: `max_score`, `joint`, `start_i`, `end_i`.
An entry whose `joint` is default-constructed (v = 0) is *unresolved*; a
resolved entry carries the candidate joint.  Joint-type indices (`int64_t` in
the header, always non-negative) are embedded as `ℕ`. -/
structure FrontierEntry where
  max_score : ℚ
  joint : Joint
  start_i : ℕ
  end_i : ℕ
deriving Repr, DecidableEq

/-- The comparator on frontier entries from the header:
`frontier_compare = [](a, b) { return a.max_score < b.max_score; }`. -/
def frontier_compare (a b : FrontierEntry) : Bool :=
  a.max_score < b.max_score

/-- The frontier `std::priority_queue` with comparator `frontier_compare`,
embedded as a list of entries; `popMax` realizes the container's contract
(`top`/`pop` remove a greatest element w.r.t. the comparator) by linear scan. -/
def popMax : List FrontierEntry → Option (FrontierEntry × List FrontierEntry)
  | [] => none
  | e :: es =>
    match popMax es with
    | none => some (e, [])
    | some (m, rest) =>
      if frontier_compare e m then some (m, e :: rest) else some (e, es)

/-- The decoder configuration: the six static members of `CifCaf`
(`greedy`, `keypoint_threshold`, `keypoint_threshold_rel`, `reverse_match`,
`force_complete`, `force_complete_caf_th`), bundled as an explicit value. -/
structure Config where
  greedy : Bool
  keypoint_threshold : ℚ
  keypoint_threshold_rel : ℚ
  reverse_match : Bool
  force_complete : Bool
  force_complete_caf_th : ℚ
deriving Repr, DecidableEq

/-- Modelled from the spec: one activation of an association-field slice — an
activation strength `a`, a vote for the source location `(x1, y1)`, a vote for
the target location `(x2, y2)` and a target scale vote `s2`. -/
structure CafSample where
  a : ℚ
  x1 : ℚ
  y1 : ℚ
  x2 : ℚ
  y2 : ℚ
  s2 : ℚ
deriving Repr, DecidableEq

/-- An association-field slice is the list of its activations. -/
abbrev CafField := List CafSample

/-- The forward/backward association slices (`caf_fb_t`), indexed by directed
joint-type pair: `caf (a, b)` is the slice read from type `a` toward type `b`. -/
abbrev CafFb := ℕ × ℕ → CafField

/-- Clip a confidence into `[0, 1]` (spec §4.1 step 2). -/
def clip01 (q : ℚ) : ℚ := if q < 0 then 0 else if 1 < q then 1 else q

/-- `|a - b| ≤ r`, written with plain comparisons so that it evaluates by
kernel reduction. -/
def withinTol (a b r : ℚ) : Bool :=
  decide (qsub b r ≤ a ∧ a ≤ qadd b r)

/-- Modelled from the spec: an activation participates in the vote when its
source-location vote lies within a radius proportional to the source joint's
scale (spec §4.1 step 2). -/
def nearSource (src : Joint) (smp : CafSample) : Bool :=
  withinTol smp.x1 src.x src.s && withinTol smp.y1 src.y src.s

/-- The positive activations voting for this source joint. -/
def voteList (field : CafField) (src : Joint) : List CafSample :=
  field.filter (fun smp => nearSource src smp && decide (0 < smp.a))

/-- Modelled from the spec: the blend kernel of `_connection_value`
(spec §4.1 step 2) — accumulate weighted votes around the source, normalize by
total weight, clip the confidence into `[0, 1]`.  Returns `none` when no
positive activation is near the source.  The returned joint's `v` is the
blended confidence before attenuation by the source confidence. -/
def blend (field : CafField) (src : Joint) : Option Joint :=
  let votes := voteList field src
  let w : ℚ := qsum (votes.map (fun smp => smp.a))
  if 0 < w then
    some ⟨clip01 (qdiv (qsum (votes.map (fun smp => qmul smp.a smp.a))) w),
          qdiv (qsum (votes.map (fun smp => qmul smp.a smp.x2))) w,
          qdiv (qsum (votes.map (fun smp => qmul smp.a smp.y2))) w,
          qdiv (qsum (votes.map (fun smp => qmul smp.a smp.s2))) w⟩
  else none

/-- Modelled from the spec: the reverse-match consistency check
(spec §4.1 step 3) — read the backward slice from the tentative target and
require the reconstructed source location to be within a tolerance (the source
scale) of the true source location. -/
def reverseOk (bfield : CafField) (src cand : Joint) : Bool :=
  match blend bfield cand with
  | none => false
  | some back => withinTol back.x src.x src.s && withinTol back.y src.y src.s

/-- Modelled from the spec: `CifCaf::_connection_value` (spec §4.1) — read the
source joint; blend the forward slice around it (the blended confidence is
attenuated by the source confidence: "true target confidence can only be ≤
source confidence after blending loss"); optionally check reverse-match
consistency (`greedy` disables it); apply the `keypoint_threshold` (absolute)
and `keypoint_threshold_rel` (relative to the source confidence) rejection
gates; return the candidate, or a default (zero-confidence) joint on any
rejection. -/
def connectionValue (cfg : Config) (caf : CafFb) (ann : List Joint)
    (start_i end_i : ℕ) : Joint :=
  let src := ann.getD start_i defaultJoint
  if src.v ≤ 0 then defaultJoint
  else
    match blend (caf (start_i, end_i)) src with
    | none => defaultJoint
    | some cand =>
      if cfg.reverse_match && !cfg.greedy &&
          !(reverseOk (caf (end_i, start_i)) src cand) then defaultJoint
      else
        let v := qmul cand.v src.v
        if v < cfg.keypoint_threshold ∨ v < qmul cfg.keypoint_threshold_rel src.v
        then defaultJoint
        else ⟨v, cand.x, cand.y, cand.s⟩

/-- The blended confidence of the candidate for directed edge
`(start_i, end_i)`: the forward-blend confidence attenuated by the source
confidence (`0` when no blend is possible). -/
def blendedConfidence (caf : CafFb) (ann : List Joint) (start_i end_i : ℕ) : ℚ :=
  let src := ann.getD start_i defaultJoint
  match blend (caf (start_i, end_i)) src with
  | none => 0
  | some cand => qmul cand.v src.v

/-- The state of one annotation's growth: the joint slots (`ann`), the frontier
queue, the `in_frontier` visited set of directed edges, plus two ghost traces —
`eval_log`, the directed edges handed to `connectionValue` so far, and
`accept_log`, the accepted joints paired with the source-slot confidence that
admitted their unresolved frontier entry. -/
structure GrowState where
  ann : List Joint
  frontier : List FrontierEntry
  in_frontier : List (ℕ × ℕ)
  eval_log : List (ℕ × ℕ)
  accept_log : List (ℚ × Joint)
deriving Repr, DecidableEq

/-- The directed edges leaving joint type `start_i` along the skeleton's limbs. -/
def dirEdges (skel : List (ℕ × ℕ)) (start_i : ℕ) : List (ℕ × ℕ) :=
  skel.foldr (fun p acc =>
    (if p.1 = start_i then [(start_i, p.2)] else []) ++
      (if p.2 = start_i then [(start_i, p.1)] else []) ++ acc) []

/-- One edge of the `_frontier_add_from` loop: push an unresolved entry keyed
by the source joint's confidence when the far end is unfilled and the directed
edge is not yet visited, and mark the edge visited. -/
def addEdge (ann : List Joint) (st : List FrontierEntry × List (ℕ × ℕ))
    (e : ℕ × ℕ) : List FrontierEntry × List (ℕ × ℕ) :=
  if (ann.getD e.2 defaultJoint).v = 0 ∧ e ∉ st.2 then
    (⟨(ann.getD e.1 defaultJoint).v, defaultJoint, e.1, e.2⟩ :: st.1, e :: st.2)
  else st

/-- Modelled from the spec: the body of `CifCaf::_frontier_add_from`
(spec §4.2) — for every limb incident to `start_i` whose far end is not yet
filled and whose directed edge is not in the visited set, push an unresolved
`FrontierEntry` keyed by the source joint's confidence and mark the edge
visited. -/
def frontierAddFrom (skel : List (ℕ × ℕ)) (ann : List Joint) (start_i : ℕ)
    (fr : List FrontierEntry) (vis : List (ℕ × ℕ)) :
    List FrontierEntry × List (ℕ × ℕ) :=
  (dirEdges skel start_i).foldl (addEdge ann) (fr, vis)

/-- Modelled from the spec: one iteration of the `_grow` loop (spec §4.2).
Pop the max-priority entry.  An unresolved entry is resolved via
`connectionValue` (logged in `eval_log`) and re-pushed keyed by its true
confidence when positive.  A resolved entry whose target slot is still
unfilled is accepted — written into the slot (logged in `accept_log` with the
source-slot confidence) and expanded via `frontierAddFrom`; if the slot is
already filled it is discarded.  Returns `none` when the frontier is empty
(growth finished). -/
def growStep (skel : List (ℕ × ℕ)) (cfg : Config) (caf : CafFb)
    (st : GrowState) : Option GrowState :=
  match popMax st.frontier with
  | none => none
  | some (e, rest) =>
    if 0 < e.joint.v then
      if (st.ann.getD e.end_i defaultJoint).v = 0 then
        let ann' := st.ann.set e.end_i e.joint
        let fv := frontierAddFrom skel ann' e.end_i rest st.in_frontier
        some { ann := ann', frontier := fv.1, in_frontier := fv.2,
               eval_log := st.eval_log,
               accept_log :=
                 ((st.ann.getD e.start_i defaultJoint).v, e.joint) :: st.accept_log }
      else
        some { st with frontier := rest }
    else
      let nj := connectionValue cfg caf st.ann e.start_i e.end_i
      let fr2 := if 0 < nj.v then
          (⟨nj.v, nj, e.start_i, e.end_i⟩ :: rest) else rest
      some { st with
              frontier := fr2,
              eval_log := (e.start_i, e.end_i) :: st.eval_log }

/-- Run up to `n` iterations of the `_grow` loop, stopping when the frontier
is exhausted. -/
def growIter (skel : List (ℕ × ℕ)) (cfg : Config) (caf : CafFb) :
    ℕ → GrowState → GrowState
  | 0, st => st
  | n + 1, st =>
    match growStep skel cfg caf st with
    | none => st
    | some st' => growIter skel cfg caf n st'

/-- Modelled from the spec: the start of one annotation's growth (spec §4.2
seeding) — a fresh annotation of `nk` empty slots with the seed written into
its slot, an empty frontier and an empty (per-annotation) visited set, expanded
once from the seed. -/
def initGrowState (skel : List (ℕ × ℕ)) (nk : ℕ) (seed : Joint) (seed_i : ℕ) :
    GrowState :=
  let ann := (List.replicate nk defaultJoint).set seed_i seed
  let fv := frontierAddFrom skel ann seed_i [] []
  { ann := ann, frontier := fv.1, in_frontier := fv.2,
    eval_log := [], accept_log := [] }

/-- The directed edge of a frontier entry, as stored in the visited set. -/
def edgeOf (e : FrontierEntry) : ℕ × ℕ := (e.start_i, e.end_i)

/-- The directed edges of the unresolved entries of a frontier. -/
def unresolvedEdges (fr : List FrontierEntry) : List (ℕ × ℕ) :=
  (fr.filter (fun e => !decide (0 < e.joint.v))).map edgeOf

/-- The `_grow` bookkeeping invariant behind visited-set soundness: the edges
evaluated so far together with the unresolved edges still in the frontier are
pairwise distinct, and all of them have been recorded in the visited set. -/
def FrontierVisInv (ev : List (ℕ × ℕ)) (fr : List FrontierEntry)
    (vis : List (ℕ × ℕ)) : Prop :=
  (ev ++ unresolvedEdges fr).Nodup ∧ ∀ x ∈ ev ++ unresolvedEdges fr, x ∈ vis

/-- The joint types adjacent to `j` along the skeleton's limbs. -/
def neighborsOf (skel : List (ℕ × ℕ)) (j : ℕ) : List ℕ :=
  skel.foldr (fun p acc =>
    (if p.1 = j then [p.2] else []) ++ (if p.2 = j then [p.1] else []) ++ acc) []

/-- Modelled from the spec: an activation's target vote lies near the
candidate location (within the candidate's scale). -/
def nearTarget (cand : Joint) (smp : CafSample) : Bool :=
  withinTol smp.x2 cand.x cand.s && withinTol smp.y2 cand.y cand.s

/-- Modelled from the spec: the association-field value between an
already-filled neighbor and a candidate location (spec §4.3) — the strongest
activation consistent with both endpoints, `0` when there is none. -/
def cafValue (field : CafField) (srcJ cand : Joint) : ℚ :=
  ((field.filter (fun smp => nearSource srcJ smp && nearTarget cand smp)).map
      (fun smp => smp.a)).foldr (fun a b => if a ≤ b then b else a) 0

/-- Modelled from the spec: the `_force_complete` decision for one unfilled
slot `j` (spec §4.3).  `peak j` is the best unoccupied peak of the dense
confidence map for joint type `j` (the dense accumulator and occupancy grid
are external collaborators, abstracted as this function).  The peak is
accepted only when the association field between some already-filled
neighboring joint and the candidate location exceeds `force_complete_caf_th`;
an accepted joint is filled with attenuated (halved) confidence, otherwise
the slot stays default (v = 0). -/
def fillSlot (cfg : Config) (skel : List (ℕ × ℕ)) (caf : CafFb)
    (peak : ℕ → Joint) (ann : List Joint) (j : ℕ) : Joint :=
  let cand := peak j
  if 0 < cand.v ∧ (neighborsOf skel j).any (fun k =>
      decide (0 < (ann.getD k defaultJoint).v) &&
        decide (cfg.force_complete_caf_th <
          cafValue (caf (k, j)) (ann.getD k defaultJoint) cand)) then
    ⟨qdiv cand.v 2, cand.x, cand.y, cand.s⟩
  else defaultJoint

/-- Walk the slots of one grown annotation (`j` is the joint-type index of the
head of the remaining list), keeping filled slots and applying `fillSlot` to
unfilled ones; the neighbor checks read the pre-pass slots `ann0` (the pass
runs once, not iteratively to fixpoint). -/
def forceFill (cfg : Config) (skel : List (ℕ × ℕ)) (caf : CafFb)
    (peak : ℕ → Joint) (ann0 : List Joint) : ℕ → List Joint → List Joint
  | _, [] => []
  | j, jt :: rest =>
    (if 0 < jt.v then jt else fillSlot cfg skel caf peak ann0 j) ::
      forceFill cfg skel caf peak ann0 (j + 1) rest

/-- Modelled from the spec: `CifCaf::_force_complete` on one annotation
(spec §4.3). -/
def forceCompleteAnn (cfg : Config) (skel : List (ℕ × ℕ)) (caf : CafFb)
    (peak : ℕ → Joint) (ann : List Joint) : List Joint :=
  forceFill cfg skel caf peak ann 0 ann

/-- The lazy-evaluation bound invariant: every resolved entry in the frontier
is bounded by its source slot's confidence, and every logged acceptance
satisfies its admission bound. -/
def BoundInv (st : GrowState) : Prop :=
  (∀ e ∈ st.frontier, 0 < e.joint.v →
      e.joint.v ≤ (st.ann.getD e.start_i defaultJoint).v) ∧
  (∀ p ∈ st.accept_log, p.2.v ≤ p.1)

/-- Modelled from the spec: the total annotation confidence used to order
output skeletons ("descending total/seed confidence", §6). -/
def annScore (ann : List Joint) : ℚ := qsum (ann.map (fun j => j.v))

/-- Insert into a list kept sorted by strictly-greater-first key. -/
def insertDesc {α : Type} (key : α → ℚ) (a : α) : List α → List α
  | [] => [a]
  | b :: bs => if key b < key a then a :: b :: bs else b :: insertDesc key a bs

/-- Sort a list by descending key (insertion sort; deterministic tie-break by
input order). -/
def sortDesc {α : Type} (key : α → ℚ) : List α → List α
  | [] => []
  | a :: as => insertDesc key a (sortDesc key as)

/-- One row of the flat output tensor of `call`:
`(skeleton_index, joint_type, v, x, y, s)`. -/
structure Row where
  skeleton_index : ℕ
  joint_type : ℕ
  v : ℚ
  x : ℚ
  y : ℚ
  s : ℚ
deriving Repr, DecidableEq

/-- The output rows of one annotation: one row per joint-type index
`0 .. nk-1` in order, unfilled slots emitted with `v = 0`, coordinates
rescaled by the stride. -/
def annRows (stride : ℕ) (i nk : ℕ) (ann : List Joint) : List Row :=
  (List.range nk).map (fun j =>
    ⟨i, j, (ann.getD j defaultJoint).v,
      qmul (ann.getD j defaultJoint).x (stride : ℚ),
      qmul (ann.getD j defaultJoint).y (stride : ℚ),
      qmul (ann.getD j defaultJoint).s (stride : ℚ)⟩)

def flattenFrom (stride nk : ℕ) : ℕ → List (List Joint) → List Row
  | _, [] => []
  | i, ann :: rest => annRows stride i nk ann ++ flattenFrom stride nk (i + 1) rest

/-- Modelled from the spec: the flat output array of `call` (§6) — skeleton
by skeleton, `nk` rows each. -/
def flattenRows (stride nk : ℕ) (anns : List (List Joint)) : List Row :=
  flattenFrom stride nk 0 anns

/-- Modelled from the spec: the accumulated dense confidence map (external
collaborator `CifHr`, abstracted): the peaks it yields as
`(joint_type, joint)` pairs, plus the number of fields of the raw cif
tensor (used by shape validation). -/
structure CifInput where
  n_fields : ℕ
  seeds : List (ℕ × Joint)

/-- The association input: the number of fields of the raw caf tensor and the
per-directed-edge field slices. -/
structure CafInput where
  n_fields : ℕ
  fieldFor : ℕ × ℕ → CafField

/-- Every limb of the skeleton references joint types below `n_keypoints`. -/
def validTopology (nk : ℕ) (skel : List (ℕ × ℕ)) : Bool :=
  skel.all (fun p => decide (p.1 < nk) && decide (p.2 < nk))

/-- The field dimensions match the declared strides: one cif channel per
joint type, one caf channel per limb, positive strides. -/
def validShapes (nk nLimbs : ℕ) (cif : CifInput) (cif_stride : ℕ)
    (caf : CafInput) (caf_stride : ℕ) : Bool :=
  decide (cif.n_fields = nk) && decide (caf.n_fields = nLimbs) &&
    decide (0 < cif_stride) && decide (0 < caf_stride)

/-- Modelled from the spec: the occupancy check (external collaborator,
abstracted): a seed is usable when no claimed joint of the same type lies
within the claimed scale. -/
def seedUsable (claimed : List (ℕ × Joint)) (s : ℕ × Joint) : Bool :=
  claimed.all (fun c =>
    !(decide (c.1 = s.1) && withinTol s.2.x c.2.x c.2.s &&
      withinTol s.2.y c.2.y c.2.s))

/-- Claim the filled joints of a grown annotation into the occupancy list. -/
def claimAnn (nk : ℕ) (ann : List Joint) (claimed : List (ℕ × Joint)) :
    List (ℕ × Joint) :=
  ((List.range nk).filterMap (fun j =>
    if 0 < (ann.getD j defaultJoint).v then some (j, ann.getD j defaultJoint)
    else none)) ++ claimed

/-- An upper bound on the number of `_grow` iterations one annotation needs:
every iteration pops one entry, at most `2 · |skeleton|` unresolved entries
are ever pushed (one per directed edge, deduplicated by the visited set) and
each is re-pushed at most once as resolved. -/
def growFuel (skel : List (ℕ × ℕ)) : ℕ := 6 * skel.length + 6

/-- Grow one annotation from a seed `(joint_type, joint)`. -/
def growAnn (cfg : Config) (skel : List (ℕ × ℕ)) (caf : CafFb)
    (nk : ℕ) (s : ℕ × Joint) : List Joint :=
  (growIter skel cfg caf (growFuel skel) (initGrowState skel nk s.2 s.1)).ann

/-- Modelled from the spec: the seed-and-grow loop of `call` (§4.2 seeding) —
process peaks in descending confidence order; for each usable peak above the
threshold, grow an annotation from a fresh per-annotation state and claim its
joints into the occupancy list. -/
def runSeeds (cfg : Config) (skel : List (ℕ × ℕ)) (caf : CafFb) (nk : ℕ) :
    List (ℕ × Joint) → List (ℕ × Joint) → List (List Joint)
  | [], _ => []
  | s :: rest, claimed =>
    if s.1 < nk ∧ cfg.keypoint_threshold < s.2.v ∧ seedUsable claimed s then
      runSeeds cfg skel caf nk rest
        (claimAnn nk (growAnn cfg skel caf nk s) claimed) |>.cons
        (growAnn cfg skel caf nk s)
    else runSeeds cfg skel caf nk rest claimed

/-- Modelled from the spec: the best confidence-map peak available for joint
type `j`, used by the force-complete pass. -/
def peakFor (cif : CifInput) : ℕ → Joint :=
  fun j => (cif.seeds.filter (fun s => decide (s.1 = j))).foldr
    (fun s best => if best.v < s.2.v then s.2 else best) defaultJoint

def skeletonErr : String := "skeleton topology references a joint type out of range"

def shapeErr : String := "field dimensions do not match the stated stride"

/-- Modelled from the spec: `CifCaf::call` (§4.4, §6, §7) — validate the
skeleton topology and the field shapes before any growth begins, failing fast
with a diagnostic; then seed-and-grow, optionally force-complete, rescale by
stride and emit the flat output rows with skeletons ordered by descending
total confidence. -/
def decode (cfg : Config) (nk : ℕ) (skel : List (ℕ × ℕ)) (cif : CifInput)
    (cif_stride : ℕ) (caf : CafInput) (caf_stride : ℕ) :
    Except String (List Row) :=
  if !validTopology nk skel then .error skeletonErr
  else if !validShapes nk skel.length cif cif_stride caf caf_stride then
    .error shapeErr
  else
    let seeds := sortDesc (fun s => s.2.v) cif.seeds
    let grown := runSeeds cfg skel caf.fieldFor nk seeds []
    let anns := if cfg.force_complete then
        grown.map (forceCompleteAnn cfg skel caf.fieldFor (peakFor cif))
      else grown
    .ok (flattenRows cif_stride nk (sortDesc annScore anns))

instance exceptDecEq {α β : Type} [DecidableEq α] [DecidableEq β] :
    DecidableEq (Except α β) := fun a b =>
  match a, b with
  | .error x, .error y =>
    if h : x = y then isTrue (by rw [h]) else
      isFalse (by intro hc; injection hc; exact h (by assumption))
  | .error _, .ok _ => isFalse (by intro hc; injection hc)
  | .ok _, .error _ => isFalse (by intro hc; injection hc)
  | .ok x, .ok y =>
    if h : x = y then isTrue (by rw [h]) else
      isFalse (by intro hc; injection hc; exact h (by assumption))

theorem den_cast_ne_zero (a : ℚ) : ((a.den : ℚ)) ≠ 0 :=
  Nat.cast_ne_zero.mpr a.den_nz

theorem qneg_eq (a : ℚ) : qneg a = -a := by
  rw [qneg, Rat.mkRat_eq_divInt, Rat.divInt_eq_div]
  push_cast
  rw [neg_div, Rat.num_div_den]

theorem qmul_eq (a b : ℚ) : qmul a b = a * b := by
  rw [qmul, Rat.mkRat_eq_divInt, Rat.divInt_eq_div]
  push_cast
  conv_rhs => rw [← Rat.num_div_den a, ← Rat.num_div_den b]
  rw [div_mul_div_comm]

theorem qadd_eq (a b : ℚ) : qadd a b = a + b := by
  rw [qadd, Rat.mkRat_eq_divInt, Rat.divInt_eq_div]
  push_cast
  conv_rhs => rw [← Rat.num_div_den a, ← Rat.num_div_den b]
  rw [div_add_div _ _ (den_cast_ne_zero a) (den_cast_ne_zero b)]
  congr 1
  ring

theorem qsub_eq (a b : ℚ) : qsub a b = a - b := by
  rw [qsub, qadd_eq, qneg_eq, sub_eq_add_neg]

theorem mul_own_den_eq_num (a : ℚ) : (a : ℚ) * a.den = a.num := by
  nth_rewrite 1 [← Rat.num_div_den a]
  exact div_mul_cancel₀ _ (den_cast_ne_zero a)

theorem qdiv_eq (a b : ℚ) : qdiv a b = a / b := by
  by_cases hb : b = 0
  · subst hb
    rw [qdiv]
    simp
  · have hnum : b.num ≠ 0 := Rat.num_ne_zero.mpr hb
    have hbq : (b.num : ℚ) ≠ 0 := Int.cast_ne_zero.mpr hnum
    have haden : ((a.den : ℚ)) ≠ 0 := den_cast_ne_zero a
    have key : ((a.num : ℚ) * b.den) / ((a.den : ℚ) * b.num) = a / b := by
      rw [div_eq_div_iff (mul_ne_zero haden hbq) hb]
      rw [← mul_own_den_eq_num a, ← mul_own_den_eq_num b]
      ring
    rw [qdiv, Rat.mkRat_eq_divInt, Rat.divInt_eq_div]
    rcases le_or_lt 0 b.num with hpos | hneg
    · rw [if_pos hpos]
      push_cast
      rw [abs_of_nonneg (by exact_mod_cast hpos : (0 : ℚ) ≤ (b.num : ℚ))]
      exact key
    · rw [if_neg (not_le.mpr hneg)]
      push_cast
      rw [abs_of_neg (by exact_mod_cast hneg : ((b.num : ℚ)) < 0)]
      rw [mul_neg, neg_div_neg_eq]
      exact key

theorem qsum_eq (l : List ℚ) : qsum l = l.sum := by
  induction l with
  | nil => rfl
  | cons x xs ih => rw [qsum, qadd_eq, ih, List.sum_cons]

theorem popMax_eq_none {l : List FrontierEntry} (h : popMax l = none) : l = [] := by
  cases l with
  | nil => rfl
  | cons e es =>
    simp only [popMax] at h
    rcases h' : popMax es with _ | ⟨m, rest⟩ <;> rw [h'] at h
    · exact absurd h (by simp)
    · by_cases hc : frontier_compare e m <;> simp [hc] at h

theorem popMax_perm {l : List FrontierEntry} {e : FrontierEntry}
    {rest : List FrontierEntry} (h : popMax l = some (e, rest)) :
    l.Perm (e :: rest) := by
  induction l generalizing e rest with
  | nil => simp [popMax] at h
  | cons a as ih =>
    simp only [popMax] at h
    rcases h' : popMax as with _ | ⟨m, r⟩ <;> rw [h'] at h
    · have : as = [] := popMax_eq_none h'
      subst this
      simp only [Option.some.injEq, Prod.mk.injEq] at h
      obtain ⟨rfl, rfl⟩ := h
      exact List.Perm.refl _
    · by_cases hc : frontier_compare a m
      · simp only [hc, if_true, Option.some.injEq, Prod.mk.injEq] at h
        obtain ⟨rfl, rfl⟩ := h
        exact ((ih h').cons a).trans (List.Perm.swap m a r)
      · simp only [hc, if_false, Option.some.injEq, Prod.mk.injEq] at h
        obtain ⟨rfl, rfl⟩ := h
        exact List.Perm.refl _

theorem popMax_max {l : List FrontierEntry} {e : FrontierEntry}
    {rest : List FrontierEntry} (h : popMax l = some (e, rest)) :
    ∀ f ∈ l, f.max_score ≤ e.max_score := by
  induction l generalizing e rest with
  | nil => simp [popMax] at h
  | cons a as ih =>
    simp only [popMax] at h
    rcases h' : popMax as with _ | ⟨m, r⟩ <;> rw [h'] at h
    · have : as = [] := popMax_eq_none h'
      subst this
      simp only [Option.some.injEq, Prod.mk.injEq] at h
      obtain ⟨rfl, rfl⟩ := h
      intro f hf
      rcases List.mem_singleton.mp hf with rfl
      exact le_rfl
    · by_cases hc : frontier_compare a m
      · simp only [hc, if_true, Option.some.injEq, Prod.mk.injEq] at h
        obtain ⟨rfl, -⟩ := h
        intro f hf
        rcases List.mem_cons.mp hf with rfl | hf'
        · exact le_of_lt (by simpa [frontier_compare] using hc)
        · exact ih h' f hf'
      · simp only [hc, if_false, Option.some.injEq, Prod.mk.injEq] at h
        obtain ⟨rfl, -⟩ := h
        intro f hf
        rcases List.mem_cons.mp hf with rfl | hf'
        · exact le_rfl
        · have : f.max_score ≤ m.max_score := ih h' f hf'
          have hm : ¬ a.max_score < m.max_score := by
            simpa [frontier_compare] using hc
          exact this.trans (not_lt.mp hm)

theorem clip01_nonneg (q : ℚ) : 0 ≤ clip01 q := by
  unfold clip01
  split
  · exact le_refl 0
  · split
    · exact zero_le_one
    · exact le_of_not_lt (by assumption)

theorem clip01_le_one (q : ℚ) : clip01 q ≤ 1 := by
  unfold clip01
  split
  · exact zero_le_one
  · split
    · exact le_refl 1
    · exact le_of_not_lt (by assumption)

theorem blend_v_mem_unit {field : CafField} {src cand : Joint}
    (h : blend field src = some cand) : 0 ≤ cand.v ∧ cand.v ≤ 1 := by
  simp only [blend] at h
  split at h
  · obtain rfl := Option.some.inj h
    exact ⟨clip01_nonneg _, clip01_le_one _⟩
  · exact absurd h (by simp)

/-- A positive connection value is bounded by the source joint's confidence. -/
theorem connectionValue_le_source (cfg : Config) (caf : CafFb) (ann : List Joint)
    (start_i end_i : ℕ) {j : Joint}
    (hj : connectionValue cfg caf ann start_i end_i = j) (h : 0 < j.v) :
    j.v ≤ (ann.getD start_i defaultJoint).v := by
  simp only [connectionValue] at hj
  split at hj
  · subst hj; exact absurd h (by simp [defaultJoint])
  · split at hj
    · subst hj; exact absurd h (by simp [defaultJoint])
    · split at hj
      · subst hj; exact absurd h (by simp [defaultJoint])
      · split at hj
        · subst hj; exact absurd h (by simp [defaultJoint])
        · rename_i cand hb _ hg
          subst hj
          have hv : ¬ (ann.getD start_i defaultJoint).v ≤ 0 := by assumption
          have h1 : cand.v ≤ 1 := (blend_v_mem_unit hb).2
          have h0 : 0 < (ann.getD start_i defaultJoint).v := lt_of_not_le hv
          show (qmul cand.v (ann.getD start_i defaultJoint).v ≤ _)
          rw [qmul_eq]
          calc cand.v * (ann.getD start_i defaultJoint).v
              ≤ 1 * (ann.getD start_i defaultJoint).v :=
                mul_le_mul_of_nonneg_right h1 (le_of_lt h0)
            _ = (ann.getD start_i defaultJoint).v := one_mul _

theorem unresolvedEdges_cons_unres {e : FrontierEntry} {fr : List FrontierEntry}
    (h : ¬ 0 < e.joint.v) :
    unresolvedEdges (e :: fr) = (e.start_i, e.end_i) :: unresolvedEdges fr := by
  simp [unresolvedEdges, List.filter_cons, h, edgeOf]

theorem unresolvedEdges_cons_res {e : FrontierEntry} {fr : List FrontierEntry}
    (h : 0 < e.joint.v) :
    unresolvedEdges (e :: fr) = unresolvedEdges fr := by
  simp [unresolvedEdges, List.filter_cons, h]

theorem unresolvedEdges_perm {l1 l2 : List FrontierEntry} (h : l1.Perm l2) :
    (unresolvedEdges l1).Perm (unresolvedEdges l2) :=
  (h.filter _).map _

theorem popMax_subset {l : List FrontierEntry} {e : FrontierEntry}
    {rest : List FrontierEntry} (h : popMax l = some (e, rest)) :
    e ∈ l ∧ ∀ f ∈ rest, f ∈ l := by
  have hp := popMax_perm h
  exact ⟨hp.symm.subset (List.mem_cons_self e rest),
    fun f hf => hp.symm.subset (List.mem_cons_of_mem e hf)⟩

theorem addEdge_foldl_mem (ann : List Joint) :
    ∀ (edges : List (ℕ × ℕ)) (fr : List FrontierEntry) (vis : List (ℕ × ℕ))
      (f : FrontierEntry), f ∈ (edges.foldl (addEdge ann) (fr, vis)).1 →
      f ∈ fr ∨ f.joint = defaultJoint := by
  intro edges
  induction edges with
  | nil => intro fr vis f hf; exact Or.inl hf
  | cons e es ih =>
    intro fr vis f hf
    simp only [List.foldl_cons] at hf
    by_cases hc : (ann.getD e.2 defaultJoint).v = 0 ∧ e ∉ vis
    · rw [addEdge, if_pos hc] at hf
      rcases ih _ _ f hf with hin | hd
      · rcases List.mem_cons.mp hin with rfl | h2
        · exact Or.inr rfl
        · exact Or.inl h2
      · exact Or.inr hd
    · rw [addEdge, if_neg hc] at hf
      exact ih _ _ f hf

theorem addEdge_foldl_inv (ann : List Joint) (ev : List (ℕ × ℕ)) :
    ∀ (edges : List (ℕ × ℕ)) (fr : List FrontierEntry) (vis : List (ℕ × ℕ)),
      FrontierVisInv ev fr vis →
      FrontierVisInv ev (edges.foldl (addEdge ann) (fr, vis)).1
        (edges.foldl (addEdge ann) (fr, vis)).2 := by
  intro edges
  induction edges with
  | nil => intro fr vis h; exact h
  | cons e es ih =>
    intro fr vis h
    simp only [List.foldl_cons]
    by_cases hc : (ann.getD e.2 defaultJoint).v = 0 ∧ e ∉ vis
    · rw [addEdge, if_pos hc]
      refine ih _ _ ⟨?_, ?_⟩
      · rw [unresolvedEdges_cons_unres (by simp [defaultJoint])]
        refine (List.perm_middle.symm).nodup ?_
        refine List.nodup_cons.mpr ⟨?_, h.1⟩
        intro hmem
        exact hc.2 (h.2 _ hmem)
      · intro x hx
        rw [unresolvedEdges_cons_unres (by simp [defaultJoint])] at hx
        rcases List.mem_append.mp hx with hev | hrest
        · exact List.mem_cons_of_mem e (h.2 x (List.mem_append_left _ hev))
        · rcases List.mem_cons.mp hrest with rfl | hue
          · exact List.mem_cons_self _ _
          · exact List.mem_cons_of_mem e (h.2 x (List.mem_append_right _ hue))
    · rw [addEdge, if_neg hc]
      exact ih _ _ h

/-- The visited-set invariant is preserved by each `_grow` step. -/
theorem growStep_frontierVisInv (skel : List (ℕ × ℕ)) (cfg : Config)
    (caf : CafFb) {st st' : GrowState}
    (hstep : growStep skel cfg caf st = some st')
    (hinv : FrontierVisInv st.eval_log st.frontier st.in_frontier) :
    FrontierVisInv st'.eval_log st'.frontier st'.in_frontier := by
  simp only [growStep] at hstep
  split at hstep
  · exact absurd hstep (by simp)
  · rename_i e rest hpop
    have hperm : st.frontier.Perm (e :: rest) := popMax_perm hpop
    split at hstep
    · rename_i hres
      split at hstep
      · obtain rfl := Option.some.inj hstep
        have hrest : FrontierVisInv st.eval_log rest st.in_frontier := by
          have hueq : (unresolvedEdges st.frontier).Perm (unresolvedEdges rest) := by
            have := unresolvedEdges_perm hperm
            rwa [unresolvedEdges_cons_res hres] at this
          have hp : (st.eval_log ++ unresolvedEdges st.frontier).Perm
              (st.eval_log ++ unresolvedEdges rest) := hueq.append_left _
          exact ⟨hp.nodup hinv.1, fun x hx => hinv.2 x (hp.symm.subset hx)⟩
        exact addEdge_foldl_inv _ _ _ _ _ hrest
      · obtain rfl := Option.some.inj hstep
        have hueq : (unresolvedEdges st.frontier).Perm (unresolvedEdges rest) := by
          have := unresolvedEdges_perm hperm
          rwa [unresolvedEdges_cons_res hres] at this
        have hp : (st.eval_log ++ unresolvedEdges st.frontier).Perm
            (st.eval_log ++ unresolvedEdges rest) := hueq.append_left _
        exact ⟨hp.nodup hinv.1, fun x hx => hinv.2 x (hp.symm.subset hx)⟩
    · rename_i hres
      obtain rfl := Option.some.inj hstep
      have hueq : (unresolvedEdges st.frontier).Perm
          ((e.start_i, e.end_i) :: unresolvedEdges rest) := by
        have := unresolvedEdges_perm hperm
        rwa [unresolvedEdges_cons_unres hres] at this
      have hfr2 : unresolvedEdges (if 0 < (connectionValue cfg caf st.ann
            e.start_i e.end_i).v then
            (⟨(connectionValue cfg caf st.ann e.start_i e.end_i).v,
              connectionValue cfg caf st.ann e.start_i e.end_i,
              e.start_i, e.end_i⟩ :: rest) else rest) = unresolvedEdges rest := by
        split
        · exact unresolvedEdges_cons_res (by assumption)
        · rfl
      constructor
      · show (((e.start_i, e.end_i) :: st.eval_log) ++ _).Nodup
        rw [hfr2]
        have hp : (st.eval_log ++ unresolvedEdges st.frontier).Perm
            (((e.start_i, e.end_i) :: st.eval_log) ++ unresolvedEdges rest) := by
          refine (hueq.append_left st.eval_log).trans ?_
          exact List.perm_middle
        exact hp.nodup hinv.1
      · show ∀ x ∈ ((e.start_i, e.end_i) :: st.eval_log) ++ _, x ∈ st.in_frontier
        rw [hfr2]
        intro x hx
        have hp : (st.eval_log ++ unresolvedEdges st.frontier).Perm
            (((e.start_i, e.end_i) :: st.eval_log) ++ unresolvedEdges rest) := by
          refine (hueq.append_left st.eval_log).trans ?_
          exact List.perm_middle
        exact hinv.2 x (hp.symm.subset hx)

theorem getD_set_ne {α : Type} (l : List α) (a d : α) {i j : ℕ} (h : i ≠ j) :
    (l.set i a).getD j d = l.getD j d := by
  simp [List.getD_eq_getElem?_getD, List.getElem?_set_ne h]

theorem getD_set_self {α : Type} (l : List α) (a d : α) {i : ℕ}
    (h : i < l.length) : (l.set i a).getD i d = a := by
  simp [List.getD_eq_getElem?_getD, List.getElem?_set_self h]

theorem forceFill_getD (cfg : Config) (skel : List (ℕ × ℕ)) (caf : CafFb)
    (peak : ℕ → Joint) (ann0 : List Joint) :
    ∀ (l : List Joint) (j0 i : ℕ),
      (forceFill cfg skel caf peak ann0 j0 l).getD i defaultJoint =
        (if 0 < (l.getD i defaultJoint).v then l.getD i defaultJoint
         else if i < l.length then fillSlot cfg skel caf peak ann0 (j0 + i)
         else defaultJoint) := by
  intro l
  induction l with
  | nil =>
    intro j0 i
    simp [forceFill, defaultJoint]
  | cons jt rest ih =>
    intro j0 i
    cases i with
    | zero =>
      by_cases hv : 0 < jt.v <;>
        simp [forceFill, hv, List.getD_cons_zero, Nat.succ_pos]
    | succ k =>
      have := ih (j0 + 1) k
      simp only [forceFill, List.getD_cons_succ, List.length_cons]
      rw [this]
      have harith : j0 + 1 + k = j0 + (k + 1) := by omega
      have hlen : k + 1 < rest.length + 1 ↔ k < rest.length := by omega
      rw [harith]
      by_cases hv : 0 < (rest.getD k defaultJoint).v
      · simp [hv]
      · simp only [hv, if_false]
        by_cases hk : k < rest.length
        · simp [hk, hlen.mpr hk]
        · simp [hk, fun h => hk (hlen.mp h)]

theorem growStep_preserves_filled (skel : List (ℕ × ℕ)) (cfg : Config)
    (caf : CafFb) {st st' : GrowState}
    (hstep : growStep skel cfg caf st = some st') (j : ℕ)
    (hfill : 0 < (st.ann.getD j defaultJoint).v) :
    st'.ann.getD j defaultJoint = st.ann.getD j defaultJoint := by
  simp only [growStep] at hstep
  split at hstep
  · exact absurd hstep (by simp)
  · split at hstep
    · split at hstep
      · rename_i e rest hpop hres hempty
        obtain rfl := Option.some.inj hstep
        have hne : e.end_i ≠ j := by
          intro hEq
          rw [hEq] at hempty
          rw [hempty] at hfill
          exact lt_irrefl 0 hfill
        exact getD_set_ne st.ann e.joint defaultJoint hne
      · obtain rfl := Option.some.inj hstep
        rfl
    · obtain rfl := Option.some.inj hstep
      rfl

theorem growIter_preserves_filled (skel : List (ℕ × ℕ)) (cfg : Config)
    (caf : CafFb) :
    ∀ (n : ℕ) (st : GrowState) (j : ℕ), 0 < (st.ann.getD j defaultJoint).v →
      (growIter skel cfg caf n st).ann.getD j defaultJoint =
        st.ann.getD j defaultJoint := by
  intro n
  induction n with
  | zero => intro st j _; rfl
  | succ n ih =>
    intro st j h
    simp only [growIter]
    cases hstep : growStep skel cfg caf st with
    | none => rfl
    | some st' =>
      have h1 := growStep_preserves_filled skel cfg caf hstep j h
      have h2 : 0 < (st'.ann.getD j defaultJoint).v := by rw [h1]; exact h
      rw [ih st' j h2, h1]

/-- C2: a joint slot filled with confidence `v > 0` is never overwritten — not
by a single `_grow` step, not by any number of `_grow` iterations, and not by
`_force_complete`, which only writes to slots still at `v = 0`. -/
theorem slot_write_once :
    (∀ (skel : List (ℕ × ℕ)) (cfg : Config) (caf : CafFb) (st st' : GrowState),
        growStep skel cfg caf st = some st' →
        ∀ j, 0 < (st.ann.getD j defaultJoint).v →
          st'.ann.getD j defaultJoint = st.ann.getD j defaultJoint) ∧
    (∀ (skel : List (ℕ × ℕ)) (cfg : Config) (caf : CafFb) (n : ℕ)
        (st : GrowState) (j : ℕ), 0 < (st.ann.getD j defaultJoint).v →
        (growIter skel cfg caf n st).ann.getD j defaultJoint =
          st.ann.getD j defaultJoint) ∧
    (∀ (cfg : Config) (skel : List (ℕ × ℕ)) (caf : CafFb) (peak : ℕ → Joint)
        (ann : List Joint) (j : ℕ), 0 < (ann.getD j defaultJoint).v →
        (forceCompleteAnn cfg skel caf peak ann).getD j defaultJoint =
          ann.getD j defaultJoint) := by
  refine ⟨fun skel cfg caf st st' h j hf =>
      growStep_preserves_filled skel cfg caf h j hf,
    fun skel cfg caf n st j hf => growIter_preserves_filled skel cfg caf n st j hf,
    fun cfg skel caf peak ann j hf => ?_⟩
  rw [forceCompleteAnn, forceFill_getD, if_pos hf]

/-- Witness for C2 at a concrete two-joint skeleton, one seed, an empty
association field, and one force-complete pass. -/
theorem slot_write_once_witness :
    (growStep [(0, 1)]
        ⟨false, 0, 0, false, false, 0⟩ (fun _ => [])
        ⟨[⟨1, 0, 0, 1⟩, defaultJoint], [⟨1, defaultJoint, 0, 1⟩], [(0, 1)], [], []⟩
      = some ⟨[⟨1, 0, 0, 1⟩, defaultJoint], [], [(0, 1)], [(0, 1)], []⟩) ∧
    (⟨[⟨1, 0, 0, 1⟩, defaultJoint], [], [(0, 1)], [(0, 1)], []⟩ :
        GrowState).ann.getD 0 defaultJoint
      = (⟨[⟨1, 0, 0, 1⟩, defaultJoint], [⟨1, defaultJoint, 0, 1⟩], [(0, 1)], [], []⟩ :
        GrowState).ann.getD 0 defaultJoint ∧
    (growIter [(0, 1)] ⟨false, 0, 0, false, false, 0⟩ (fun _ => []) 2
        ⟨[⟨1, 0, 0, 1⟩, defaultJoint], [⟨1, defaultJoint, 0, 1⟩], [(0, 1)], [], []⟩).ann.getD
        0 defaultJoint
      = (⟨[⟨1, 0, 0, 1⟩, defaultJoint], [⟨1, defaultJoint, 0, 1⟩], [(0, 1)], [], []⟩ :
        GrowState).ann.getD 0 defaultJoint ∧
    (forceCompleteAnn ⟨false, 0, 0, false, false, 0⟩ [(0, 1)] (fun _ => [])
        (fun _ => ⟨1, 3, 3, 1⟩) [⟨1, 0, 0, 1⟩, defaultJoint]).getD 0 defaultJoint
      = ([⟨1, 0, 0, 1⟩, defaultJoint] : List Joint).getD 0 defaultJoint := by
  have h1 : growStep [(0, 1)] ⟨false, 0, 0, false, false, 0⟩ (fun _ => [])
      ⟨[⟨1, 0, 0, 1⟩, defaultJoint], [⟨1, defaultJoint, 0, 1⟩], [(0, 1)], [], []⟩
      = some ⟨[⟨1, 0, 0, 1⟩, defaultJoint], [], [(0, 1)], [(0, 1)], []⟩ := by
    decide
  refine ⟨h1, ?_, ?_, ?_⟩
  · exact slot_write_once.1 [(0, 1)] ⟨false, 0, 0, false, false, 0⟩ (fun _ => [])
      _ _ h1 0 (by decide)
  · exact slot_write_once.2.1 [(0, 1)] ⟨false, 0, 0, false, false, 0⟩
      (fun _ => []) 2 _ 0 (by decide)
  · exact slot_write_once.2.2 ⟨false, 0, 0, false, false, 0⟩ [(0, 1)]
      (fun _ => []) (fun _ => ⟨1, 3, 3, 1⟩) [⟨1, 0, 0, 1⟩, defaultJoint] 0 (by decide)

/-- C3: a candidate whose blended confidence falls below `keypoint_threshold`,
or below `keypoint_threshold_rel` times the source joint's confidence, is
returned by `_connection_value` as the zero-confidence default joint; and a
`_grow` step only ever writes joints with `v > 0` into annotation slots, so a
gated (zero-confidence) candidate is never written into an annotation. -/
theorem threshold_gating :
    (∀ (cfg : Config) (caf : CafFb) (ann : List Joint) (a b : ℕ),
        (blendedConfidence caf ann a b < cfg.keypoint_threshold ∨
          blendedConfidence caf ann a b <
            cfg.keypoint_threshold_rel * (ann.getD a defaultJoint).v) →
        connectionValue cfg caf ann a b = defaultJoint) ∧
    (∀ (skel : List (ℕ × ℕ)) (cfg : Config) (caf : CafFb) (st st' : GrowState),
        growStep skel cfg caf st = some st' →
        ∀ j, st'.ann.getD j defaultJoint ≠ st.ann.getD j defaultJoint →
          0 < (st'.ann.getD j defaultJoint).v) := by
  constructor
  · intro cfg caf ann a b h
    simp only [connectionValue]
    split
    · rfl
    · split
      · rfl
      · split
        · rfl
        · split
          · rfl
          · rename_i cand hb hrev hg
            exfalso
            rw [qmul_eq cfg.keypoint_threshold_rel] at hg
            simp only [blendedConfidence, hb] at h
            exact hg h
  · intro skel cfg caf st st' hstep j hne
    simp only [growStep] at hstep
    split at hstep
    · exact absurd hstep (by simp)
    · split at hstep
      · split at hstep
        · rename_i e rest hpop hres hempty
          obtain rfl := Option.some.inj hstep
          by_cases hj : e.end_i = j
          · subst hj
            by_cases hlen : e.end_i < st.ann.length
            · have : (st.ann.set e.end_i e.joint).getD e.end_i defaultJoint =
                  e.joint := getD_set_self st.ann e.joint defaultJoint hlen
              show 0 < ((st.ann.set e.end_i e.joint).getD e.end_i defaultJoint).v
              rw [this]
              exact hres
            · exfalso
              have heq : st.ann.set e.end_i e.joint = st.ann :=
                List.set_eq_of_length_le (le_of_not_lt hlen)
              exact hne (by
                show (st.ann.set e.end_i e.joint).getD e.end_i defaultJoint = _
                rw [heq])
          · exact absurd (getD_set_ne st.ann e.joint defaultJoint hj) hne
        · obtain rfl := Option.some.inj hstep
          exact absurd rfl hne
      · obtain rfl := Option.some.inj hstep
        exact absurd rfl hne

/-- Witness for C3: a candidate blended at confidence mkRat 1 4 against an absolute
threshold of mkRat 1 2 is rejected, and a concrete accepting `_grow` step writes a
positive-confidence joint. -/
theorem threshold_gating_witness :
    connectionValue ⟨false, mkRat 1 2, 0, false, false, 0⟩
        (fun p => if p = (0, 1) then [⟨mkRat 1 4, 0, 0, 5, 5, 1⟩] else [])
        [⟨1, 0, 0, 1⟩, defaultJoint] 0 1 = defaultJoint ∧
    (growStep [(0, 1)] ⟨false, 0, 0, false, false, 0⟩ (fun _ => [])
        ⟨[⟨1, 0, 0, 1⟩, defaultJoint], [⟨1, ⟨1, 5, 5, 1⟩, 0, 1⟩], [(0, 1)], [(0, 1)], []⟩
      = some ⟨[⟨1, 0, 0, 1⟩, ⟨1, 5, 5, 1⟩], [], [(0, 1)], [(0, 1)], [(1, ⟨1, 5, 5, 1⟩)]⟩) ∧
    0 < ((⟨[⟨1, 0, 0, 1⟩, ⟨1, 5, 5, 1⟩], [], [(0, 1)], [(0, 1)], [(1, ⟨1, 5, 5, 1⟩)]⟩ :
        GrowState).ann.getD 1 defaultJoint).v := by
  have h2 : growStep [(0, 1)] ⟨false, 0, 0, false, false, 0⟩ (fun _ => [])
      ⟨[⟨1, 0, 0, 1⟩, defaultJoint], [⟨1, ⟨1, 5, 5, 1⟩, 0, 1⟩], [(0, 1)], [(0, 1)], []⟩
      = some ⟨[⟨1, 0, 0, 1⟩, ⟨1, 5, 5, 1⟩], [], [(0, 1)], [(0, 1)], [(1, ⟨1, 5, 5, 1⟩)]⟩ := by
    decide
  refine ⟨?_, h2, ?_⟩
  · exact threshold_gating.1 ⟨false, mkRat 1 2, 0, false, false, 0⟩
      (fun p => if p = (0, 1) then [⟨mkRat 1 4, 0, 0, 5, 5, 1⟩] else [])
      [⟨1, 0, 0, 1⟩, defaultJoint] 0 1 (Or.inl (by decide))
  · exact threshold_gating.2 [(0, 1)] ⟨false, 0, 0, false, false, 0⟩ (fun _ => [])
      _ _ h2 1 (by decide)

/-- C7: `_force_complete` fills an unfilled slot only when the association
field between an already-filled neighbor and the candidate peak exceeds
`force_complete_caf_th`.  When every filled neighbor's association value is at
or below the threshold the slot remains at the zero-confidence default, no
matter how strong the confidence-map peak is (the peak is universally
quantified); conversely a slot that did get filled has a filled neighbor whose
association value strictly exceeds the threshold. -/
theorem force_complete_gated :
    (∀ (cfg : Config) (skel : List (ℕ × ℕ)) (caf : CafFb) (peak : ℕ → Joint)
        (ann : List Joint) (j : ℕ),
        ¬ 0 < (ann.getD j defaultJoint).v →
        (∀ k ∈ neighborsOf skel j, 0 < (ann.getD k defaultJoint).v →
          cafValue (caf (k, j)) (ann.getD k defaultJoint) (peak j) ≤
            cfg.force_complete_caf_th) →
        (forceCompleteAnn cfg skel caf peak ann).getD j defaultJoint =
          defaultJoint) ∧
    (∀ (cfg : Config) (skel : List (ℕ × ℕ)) (caf : CafFb) (peak : ℕ → Joint)
        (ann : List Joint) (j : ℕ),
        ¬ 0 < (ann.getD j defaultJoint).v →
        (forceCompleteAnn cfg skel caf peak ann).getD j defaultJoint ≠
          defaultJoint →
        ∃ k ∈ neighborsOf skel j, 0 < (ann.getD k defaultJoint).v ∧
          cfg.force_complete_caf_th <
            cafValue (caf (k, j)) (ann.getD k defaultJoint) (peak j)) := by
  constructor
  · intro cfg skel caf peak ann j hun hgate
    rw [forceCompleteAnn, forceFill_getD]
    simp only [hun, if_false]
    by_cases hlen : j < ann.length
    · simp only [hlen, if_true]
      rw [Nat.zero_add]
      rw [fillSlot, if_neg]
      rintro ⟨-, hany⟩
      rw [List.any_eq_true] at hany
      obtain ⟨k, hk, hcond⟩ := hany
      rw [Bool.and_eq_true, decide_eq_true_eq, decide_eq_true_eq] at hcond
      exact absurd hcond.2 (not_lt.mpr (hgate k hk hcond.1))
    · simp [hlen]
  · intro cfg skel caf peak ann j hun hfilled
    rw [forceCompleteAnn, forceFill_getD] at hfilled
    simp only [hun, if_false] at hfilled
    by_cases hlen : j < ann.length
    · simp only [hlen, if_true] at hfilled
      rw [Nat.zero_add] at hfilled
      rw [fillSlot] at hfilled
      by_cases hcond : 0 < (peak j).v ∧ (neighborsOf skel j).any (fun k =>
          decide (0 < (ann.getD k defaultJoint).v) &&
            decide (cfg.force_complete_caf_th <
              cafValue (caf (k, j)) (ann.getD k defaultJoint) (peak j)))
      · obtain ⟨-, hany⟩ := hcond
        rw [List.any_eq_true] at hany
        obtain ⟨k, hk, hc⟩ := hany
        rw [Bool.and_eq_true, decide_eq_true_eq, decide_eq_true_eq] at hc
        exact ⟨k, hk, hc.1, hc.2⟩
      · rw [if_neg hcond] at hfilled
        exact absurd rfl hfilled
    · simp only [hlen, if_false] at hfilled
      exact absurd rfl hfilled

/-- Witness for C7: one filled neighbor, association value 0 at or below a
threshold of mkRat 1 2 — the strong peak (confidence 1) is rejected; and a filled
slot (association value 1 above the threshold) exhibits its witnessing
neighbor. -/
theorem force_complete_gated_witness :
    (forceCompleteAnn ⟨false, 0, 0, false, true, mkRat 1 2⟩ [(0, 1)] (fun _ => [])
        (fun _ => ⟨1, 0, 0, 1⟩) [defaultJoint, ⟨1, 0, 0, 1⟩]).getD 0 defaultJoint
      = defaultJoint ∧
    ∃ k ∈ neighborsOf [(0, 1)] 0,
      0 < (([defaultJoint, ⟨1, 0, 0, 1⟩] : List Joint).getD k defaultJoint).v ∧
      mkRat 1 2 <
        cafValue ((fun _ => [⟨1, 0, 0, 0, 0, 1⟩]) (k, 0))
          (([defaultJoint, ⟨1, 0, 0, 1⟩] : List Joint).getD k defaultJoint)
          ((fun _ => ⟨1, 0, 0, 1⟩) 0) := by
  constructor
  · exact force_complete_gated.1 ⟨false, 0, 0, false, true, mkRat 1 2⟩ [(0, 1)]
      (fun _ => []) (fun _ => ⟨1, 0, 0, 1⟩) [defaultJoint, ⟨1, 0, 0, 1⟩] 0
      (by decide) (by decide)
  · exact force_complete_gated.2 ⟨false, 0, 0, false, true, mkRat 1 2⟩ [(0, 1)]
      (fun _ => [⟨1, 0, 0, 0, 0, 1⟩]) (fun _ => ⟨1, 0, 0, 1⟩)
      [defaultJoint, ⟨1, 0, 0, 1⟩] 0 (by decide) (by decide)

theorem growStep_boundInv (skel : List (ℕ × ℕ)) (cfg : Config) (caf : CafFb)
    {st st' : GrowState} (hstep : growStep skel cfg caf st = some st')
    (hinv : BoundInv st) : BoundInv st' := by
  simp only [growStep] at hstep
  split at hstep
  · exact absurd hstep (by simp)
  · rename_i e rest hpop
    obtain ⟨heM, hrestM⟩ := popMax_subset hpop
    split at hstep
    · rename_i hres
      split at hstep
      · rename_i hempty
        obtain rfl := Option.some.inj hstep
        constructor
        · intro f hf hfres
          rcases addEdge_foldl_mem _ _ _ _ f hf with hfr | hd
          · have hf0 := hinv.1 f (hrestM f hfr) hfres
            have hne : e.end_i ≠ f.start_i := by
              intro hEq
              rw [← hEq] at hf0
              rw [hempty] at hf0
              exact absurd (lt_of_lt_of_le hfres hf0) (lt_irrefl 0)
            show f.joint.v ≤
              ((st.ann.set e.end_i e.joint).getD f.start_i defaultJoint).v
            rw [getD_set_ne st.ann e.joint defaultJoint hne]
            exact hf0
          · rw [hd] at hfres
            exact absurd hfres (by simp [defaultJoint])
        · intro p hp
          rcases List.mem_cons.mp hp with rfl | hold
          · exact hinv.1 e heM hres
          · exact hinv.2 p hold
      · obtain rfl := Option.some.inj hstep
        exact ⟨fun f hf hfres => hinv.1 f (hrestM f hf) hfres, hinv.2⟩
    · obtain rfl := Option.some.inj hstep
      constructor
      · intro f hf hfres
        by_cases hnj : 0 < (connectionValue cfg caf st.ann e.start_i e.end_i).v
        · rw [if_pos hnj] at hf
          rcases List.mem_cons.mp hf with rfl | hfr
          · exact connectionValue_le_source cfg caf st.ann e.start_i e.end_i
              rfl hnj
          · exact hinv.1 f (hrestM f hfr) hfres
        · rw [if_neg hnj] at hf
          exact hinv.1 f (hrestM f hf) hfres
      · exact hinv.2

theorem boundInv_init (skel : List (ℕ × ℕ)) (nk : ℕ) (seed : Joint)
    (seed_i : ℕ) : BoundInv (initGrowState skel nk seed seed_i) := by
  constructor
  · intro f hf hfres
    rcases addEdge_foldl_mem _ _ _ _ f hf with hfr | hd
    · exact absurd hfr (List.not_mem_nil f)
    · rw [hd] at hfres
      exact absurd hfres (by simp [defaultJoint])
  · intro p hp
    exact absurd hp (List.not_mem_nil p)

theorem boundInv_iter (skel : List (ℕ × ℕ)) (cfg : Config) (caf : CafFb) :
    ∀ (n : ℕ) (st : GrowState), BoundInv st →
      BoundInv (growIter skel cfg caf n st) := by
  intro n
  induction n with
  | zero => intro st h; exact h
  | succ n ih =>
    intro st h
    simp only [growIter]
    cases hstep : growStep skel cfg caf st with
    | none => exact h
    | some st' => exact ih st' (growStep_boundInv skel cfg caf hstep h)

theorem frontierVisInv_init (skel : List (ℕ × ℕ)) (nk : ℕ) (seed : Joint)
    (seed_i : ℕ) :
    FrontierVisInv (initGrowState skel nk seed seed_i).eval_log
      (initGrowState skel nk seed seed_i).frontier
      (initGrowState skel nk seed seed_i).in_frontier := by
  have hbase : FrontierVisInv [] [] [] := by
    constructor
    · simp [unresolvedEdges]
    · intro x hx
      simp [unresolvedEdges] at hx
  exact addEdge_foldl_inv _ [] _ [] [] hbase

theorem frontierVisInv_iter (skel : List (ℕ × ℕ)) (cfg : Config) (caf : CafFb) :
    ∀ (n : ℕ) (st : GrowState),
      FrontierVisInv st.eval_log st.frontier st.in_frontier →
      FrontierVisInv (growIter skel cfg caf n st).eval_log
        (growIter skel cfg caf n st).frontier
        (growIter skel cfg caf n st).in_frontier := by
  intro n
  induction n with
  | zero => intro st h; exact h
  | succ n ih =>
    intro st h
    simp only [growIter]
    cases hstep : growStep skel cfg caf st with
    | none => exact h
    | some st' => exact ih st' (growStep_frontierVisInv skel cfg caf hstep h)

/-- C4: within a single annotation's growth — any number of `_grow` iterations
from the per-annotation initial state, whose visited set starts empty and is
discarded with the state when the annotation finishes — no directed edge is
handed to `_connection_value` twice: the ghost evaluation trace has no
duplicates.  (Growth for a different seed starts from a fresh
`initGrowState`, so no edge visited for one seed suppresses work for the
next.) -/
theorem visited_set_sound (skel : List (ℕ × ℕ)) (cfg : Config) (caf : CafFb)
    (nk : ℕ) (seed : Joint) (seed_i : ℕ) (n : ℕ) :
    ((growIter skel cfg caf n (initGrowState skel nk seed seed_i)).eval_log).Nodup := by
  have h := frontierVisInv_iter skel cfg caf n _
    (frontierVisInv_init skel nk seed seed_i)
  exact (List.nodup_append.mp h.1).1

/-- C6: every joint accepted into a greedily grown annotation has confidence
at most the bound under which its unresolved frontier entry was admitted (the
source joint's slot confidence, recorded in the ghost `accept_log` at
acceptance): lazy evaluation never admits an entry under a bound smaller than
the confidence eventually realized. -/
theorem accepted_le_bound (skel : List (ℕ × ℕ)) (cfg : Config) (caf : CafFb)
    (nk : ℕ) (seed : Joint) (seed_i : ℕ) (n : ℕ) (p : ℚ × Joint)
    (hp : p ∈ (growIter skel cfg caf n
        (initGrowState skel nk seed seed_i)).accept_log) :
    p.2.v ≤ p.1 :=
  (boundInv_iter skel cfg caf n _ (boundInv_init skel nk seed seed_i)).2 p hp

/-- Witness for C6: a full concrete growth (two joint types, one limb, a
strong association sample) accepts the resolved joint `⟨1, 5, 5, 1⟩` under
admission bound 1. -/
theorem accepted_le_bound_witness :
    ((1 : ℚ), (⟨1, 5, 5, 1⟩ : Joint)) ∈
      (growIter [(0, 1)] ⟨false, 0, 0, false, false, 0⟩
        (fun p => if p = (0, 1) then [⟨1, 0, 0, 5, 5, 1⟩] else []) 3
        (initGrowState [(0, 1)] 2 ⟨1, 0, 0, 1⟩ 0)).accept_log ∧
    ((⟨1, 5, 5, 1⟩ : Joint)).v ≤ (1 : ℚ) := by
  have hm : ((1 : ℚ), (⟨1, 5, 5, 1⟩ : Joint)) ∈
      (growIter [(0, 1)] ⟨false, 0, 0, false, false, 0⟩
        (fun p => if p = (0, 1) then [⟨1, 0, 0, 5, 5, 1⟩] else []) 3
        (initGrowState [(0, 1)] 2 ⟨1, 0, 0, 1⟩ 0)).accept_log := by
    decide
  exact ⟨hm, accepted_le_bound [(0, 1)] ⟨false, 0, 0, false, false, 0⟩
    (fun p => if p = (0, 1) then [⟨1, 0, 0, 5, 5, 1⟩] else []) 2 ⟨1, 0, 0, 1⟩ 0 3
    ((1 : ℚ), (⟨1, 5, 5, 1⟩ : Joint)) hm⟩

theorem mem_insertDesc {α : Type} (key : α → ℚ) (a : α) :
    ∀ (l : List α) (x : α), x ∈ insertDesc key a l → x = a ∨ x ∈ l := by
  intro l
  induction l with
  | nil =>
    intro x hx
    exact Or.inl (List.mem_singleton.mp hx)
  | cons b bs ih =>
    intro x hx
    simp only [insertDesc] at hx
    split at hx
    · rcases List.mem_cons.mp hx with rfl | h2
      · exact Or.inl rfl
      · exact Or.inr h2
    · rcases List.mem_cons.mp hx with rfl | h2
      · exact Or.inr (List.mem_cons_self _ _)
      · rcases ih x h2 with rfl | h3
        · exact Or.inl rfl
        · exact Or.inr (List.mem_cons_of_mem _ h3)

theorem sorted_insertDesc {α : Type} (key : α → ℚ) (a : α) :
    ∀ (l : List α), List.Sorted (fun u v => key v ≤ key u) l →
      List.Sorted (fun u v => key v ≤ key u) (insertDesc key a l) := by
  intro l
  induction l with
  | nil => intro _; simp [insertDesc]
  | cons b bs ih =>
    intro h
    obtain ⟨hb, hbs⟩ := List.sorted_cons.mp h
    simp only [insertDesc]
    split
    · rename_i hlt
      refine List.sorted_cons.mpr ⟨?_, h⟩
      intro x hx
      rcases List.mem_cons.mp hx with rfl | h2
      · exact le_of_lt hlt
      · exact (hb x h2).trans (le_of_lt hlt)
    · rename_i hge
      refine List.sorted_cons.mpr ⟨?_, ih hbs⟩
      intro x hx
      rcases mem_insertDesc key a _ x hx with rfl | h2
      · exact not_lt.mp hge
      · exact hb x h2

theorem sorted_sortDesc {α : Type} (key : α → ℚ) (l : List α) :
    List.Sorted (fun u v => key v ≤ key u) (sortDesc key l) := by
  induction l with
  | nil => simp [sortDesc]
  | cons a as ih => exact sorted_insertDesc key a _ ih

theorem flattenFrom_length (stride nk : ℕ) :
    ∀ (anns : List (List Joint)) (i0 : ℕ),
      (flattenFrom stride nk i0 anns).length = anns.length * nk := by
  intro anns
  induction anns with
  | nil => intro i0; simp [flattenFrom]
  | cons ann rest ih =>
    intro i0
    simp only [flattenFrom, List.length_append, List.length_cons]
    rw [ih (i0 + 1)]
    simp [annRows]
    ring

theorem flattenFrom_get (stride nk : ℕ) :
    ∀ (anns : List (List Joint)) (i0 a j : ℕ), a < anns.length → j < nk →
      (flattenFrom stride nk i0 anns).get? (a * nk + j) =
        some ⟨i0 + a, j, ((anns.getD a []).getD j defaultJoint).v,
          qmul ((anns.getD a []).getD j defaultJoint).x (stride : ℚ),
          qmul ((anns.getD a []).getD j defaultJoint).y (stride : ℚ),
          qmul ((anns.getD a []).getD j defaultJoint).s (stride : ℚ)⟩ := by
  intro anns
  induction anns with
  | nil =>
    intro i0 a j ha _
    exact absurd ha (by simp)
  | cons ann rest ih =>
    intro i0 a j ha hj
    cases a with
    | zero =>
      have hlen : (0 * nk + j) < (annRows stride i0 nk ann).length := by
        simp [annRows, hj]
      rw [flattenFrom, List.get?_append hlen]
      simp only [annRows, List.get?_map, Nat.zero_mul, Nat.zero_add]
      rw [List.get?_range hj]
      simp [List.getD_cons_zero, Nat.add_zero]
    | succ a' =>
      have hlen : (annRows stride i0 nk ann).length ≤ (a' + 1) * nk + j := by
        simp only [annRows, List.length_map, List.length_range]
        calc nk ≤ (a' + 1) * nk := Nat.le_mul_of_pos_left nk (Nat.succ_pos a')
          _ ≤ (a' + 1) * nk + j := Nat.le_add_right _ _
      rw [flattenFrom, List.get?_append_right hlen]
      have hidx : (a' + 1) * nk + j - (annRows stride i0 nk ann).length
          = a' * nk + j := by
        simp only [annRows, List.length_map, List.length_range]
        have : (a' + 1) * nk = a' * nk + nk := by ring
        omega
      rw [hidx]
      have := ih (i0 + 1) a' j (Nat.lt_of_succ_lt_succ ha) hj
      rw [this]
      have harith : i0 + 1 + a' = i0 + (a' + 1) := by omega
      rw [harith]
      simp [List.getD_cons_succ]

/-- C1: decoding is deterministic — two runs of `call` on the same input
fields, strides and configuration produce the same result.  (The model
decoder is a function of its inputs alone: it holds no state across calls —
the frontier, visited set and occupancy of each growth start fresh inside the
run.) -/
theorem decode_deterministic (cfg : Config) (nk : ℕ) (skel : List (ℕ × ℕ))
    (cif : CifInput) (cif_stride : ℕ) (caf : CafInput) (caf_stride : ℕ)
    (r1 r2 : Except String (List Row))
    (h1 : decode cfg nk skel cif cif_stride caf caf_stride = r1)
    (h2 : decode cfg nk skel cif cif_stride caf caf_stride = r2) : r1 = r2 := by
  rw [← h1, ← h2]

/-- Witness for C1 at a concrete input (one joint type, no limbs, one seed). -/
theorem decode_deterministic_witness :
    decode ⟨false, 0, 0, false, false, 0⟩ 1 [] ⟨1, [(0, ⟨1, 2, 2, 1⟩)]⟩ 1
        ⟨0, fun _ => []⟩ 1
      = decode ⟨false, 0, 0, false, false, 0⟩ 1 [] ⟨1, [(0, ⟨1, 2, 2, 1⟩)]⟩ 1
        ⟨0, fun _ => []⟩ 1 :=
  decode_deterministic ⟨false, 0, 0, false, false, 0⟩ 1 [] ⟨1, [(0, ⟨1, 2, 2, 1⟩)]⟩
    1 ⟨0, fun _ => []⟩ 1 _ _ rfl rfl

/-- C9: `call` validates before growing — a skeleton referencing a joint type
`≥ n_keypoints` makes it fail fast with the topology diagnostic, and (with a
valid topology) mismatched field dimensions versus the stated strides make it
fail fast with the shape diagnostic; in both cases no growth output is
produced. -/
theorem decode_validates_first :
    (∀ (cfg : Config) (nk : ℕ) (skel : List (ℕ × ℕ)) (cif : CifInput)
        (cs : ℕ) (caf : CafInput) (as2 : ℕ), validTopology nk skel = false →
        decode cfg nk skel cif cs caf as2 = Except.error skeletonErr) ∧
    (∀ (cfg : Config) (nk : ℕ) (skel : List (ℕ × ℕ)) (cif : CifInput)
        (cs : ℕ) (caf : CafInput) (as2 : ℕ), validTopology nk skel = true →
        validShapes nk skel.length cif cs caf as2 = false →
        decode cfg nk skel cif cs caf as2 = Except.error shapeErr) := by
  constructor
  · intro cfg nk skel cif cs caf as2 h
    simp [decode, h]
  · intro cfg nk skel cif cs caf as2 h1 h2
    simp [decode, h1, h2]

/-- Witness for C9: a two-type skeleton whose limb references type 5 fails
with the topology diagnostic; a valid topology with a wrong cif channel count
fails with the shape diagnostic. -/
theorem decode_validates_first_witness :
    decode ⟨false, 0, 0, false, false, 0⟩ 2 [(0, 5)] ⟨2, []⟩ 1 ⟨1, fun _ => []⟩ 1
      = Except.error skeletonErr ∧
    decode ⟨false, 0, 0, false, false, 0⟩ 2 [(0, 1)] ⟨3, []⟩ 1 ⟨1, fun _ => []⟩ 1
      = Except.error shapeErr := by
  constructor
  · exact decode_validates_first.1 ⟨false, 0, 0, false, false, 0⟩ 2 [(0, 5)]
      ⟨2, []⟩ 1 ⟨1, fun _ => []⟩ 1 (by decide)
  · exact decode_validates_first.2 ⟨false, 0, 0, false, false, 0⟩ 2 [(0, 1)]
      ⟨3, []⟩ 1 ⟨1, fun _ => []⟩ 1 (by decide) (by decide)

theorem growStep_ann_length (skel : List (ℕ × ℕ)) (cfg : Config) (caf : CafFb)
    {st st' : GrowState} (hstep : growStep skel cfg caf st = some st') :
    st'.ann.length = st.ann.length := by
  simp only [growStep] at hstep
  split at hstep
  · exact absurd hstep (by simp)
  · split at hstep
    · split at hstep
      · obtain rfl := Option.some.inj hstep
        simp [List.length_set]
      · obtain rfl := Option.some.inj hstep
        rfl
    · obtain rfl := Option.some.inj hstep
      rfl

theorem growIter_ann_length (skel : List (ℕ × ℕ)) (cfg : Config) (caf : CafFb) :
    ∀ (n : ℕ) (st : GrowState),
      (growIter skel cfg caf n st).ann.length = st.ann.length := by
  intro n
  induction n with
  | zero => intro st; rfl
  | succ n ih =>
    intro st
    simp only [growIter]
    cases hstep : growStep skel cfg caf st with
    | none => rfl
    | some st' => rw [ih st', growStep_ann_length skel cfg caf hstep]

theorem growAnn_length (cfg : Config) (skel : List (ℕ × ℕ)) (caf : CafFb)
    (nk : ℕ) (s : ℕ × Joint) : (growAnn cfg skel caf nk s).length = nk := by
  rw [growAnn, growIter_ann_length]
  simp [initGrowState, List.length_set]

theorem forceFill_length (cfg : Config) (skel : List (ℕ × ℕ)) (caf : CafFb)
    (peak : ℕ → Joint) (ann0 : List Joint) :
    ∀ (l : List Joint) (j : ℕ),
      (forceFill cfg skel caf peak ann0 j l).length = l.length := by
  intro l
  induction l with
  | nil => intro j; rfl
  | cons jt rest ih => intro j; simp [forceFill, ih]

theorem forceCompleteAnn_length (cfg : Config) (skel : List (ℕ × ℕ))
    (caf : CafFb) (peak : ℕ → Joint) (ann : List Joint) :
    (forceCompleteAnn cfg skel caf peak ann).length = ann.length :=
  forceFill_length cfg skel caf peak ann ann 0

theorem mem_sortDesc {α : Type} (key : α → ℚ) :
    ∀ (l : List α) (x : α), x ∈ sortDesc key l → x ∈ l := by
  intro l
  induction l with
  | nil => intro x hx; exact absurd hx (List.not_mem_nil x)
  | cons a as ih =>
    intro x hx
    rcases mem_insertDesc key a _ x hx with rfl | h2
    · exact List.mem_cons_self _ _
    · exact List.mem_cons_of_mem _ (ih x h2)

theorem runSeeds_mem (cfg : Config) (skel : List (ℕ × ℕ)) (caf : CafFb)
    (nk : ℕ) :
    ∀ (seeds claimed : List (ℕ × Joint)) (x : List Joint),
      x ∈ runSeeds cfg skel caf nk seeds claimed →
      ∃ s, x = growAnn cfg skel caf nk s := by
  intro seeds
  induction seeds with
  | nil => intro claimed x hx; exact absurd hx (List.not_mem_nil x)
  | cons s rest ih =>
    intro claimed x hx
    simp only [runSeeds] at hx
    split at hx
    · rcases List.mem_cons.mp hx with rfl | h2
      · exact ⟨s, rfl⟩
      · exact ih _ x h2
    · exact ih _ x hx

/-- C8: a successful `call` returns the flat row array of a list of
annotations sorted by descending total confidence: each annotation has
exactly `nk` slots (so its total confidence is the sum of exactly the slots
emitted for it), one row
`(skeleton_index, joint_type, v, x·stride, y·stride, s·stride)` per joint
slot, `nk` consecutive rows per skeleton in joint-type order, unfilled slots
included as `v = 0` rows (`getD` of an unfilled slot is the default joint). -/
theorem call_output_format (cfg : Config) (nk : ℕ) (skel : List (ℕ × ℕ))
    (cif : CifInput) (cs : ℕ) (caf : CafInput) (as2 : ℕ) (rows : List Row)
    (h : decode cfg nk skel cif cs caf as2 = Except.ok rows) :
    ∃ anns : List (List Joint),
      (∀ ann ∈ anns, ann.length = nk) ∧
      List.Sorted (fun u v => annScore v ≤ annScore u) anns ∧
      rows = flattenRows cs nk anns ∧
      rows.length = anns.length * nk ∧
      (∀ a j, a < anns.length → j < nk →
        rows.get? (a * nk + j) =
          some ⟨a, j, ((anns.getD a []).getD j defaultJoint).v,
            qmul ((anns.getD a []).getD j defaultJoint).x (cs : ℚ),
            qmul ((anns.getD a []).getD j defaultJoint).y (cs : ℚ),
            qmul ((anns.getD a []).getD j defaultJoint).s (cs : ℚ)⟩) := by
  simp only [decode] at h
  split at h
  · exact absurd h (by simp)
  · split at h
    · exact absurd h (by simp)
    · obtain rfl := (Except.ok.inj h).symm
      refine ⟨_, ?_, sorted_sortDesc annScore _, rfl,
        flattenFrom_length cs nk _ 0, ?_⟩
      · intro ann hann
        have hA := mem_sortDesc annScore _ ann hann
        split at hA
        · obtain ⟨pre, hpre, rfl⟩ := List.mem_map.mp hA
          rw [forceCompleteAnn_length]
          obtain ⟨s, rfl⟩ := runSeeds_mem cfg skel caf.fieldFor nk _ _ pre hpre
          exact growAnn_length cfg skel caf.fieldFor nk s
        · obtain ⟨s, rfl⟩ := runSeeds_mem cfg skel caf.fieldFor nk _ _ ann hA
          exact growAnn_length cfg skel caf.fieldFor nk s
      · intro a j ha hj
        have := flattenFrom_get cs nk _ 0 a j ha hj
        rw [flattenRows]
        rw [this]
        simp [Nat.zero_add]

/-- Witness for C8 at a concrete input with one seed and no limbs: the output
is one skeleton of one `v > 0` row. -/
theorem call_output_format_witness :
    ∃ anns : List (List Joint),
      (∀ ann ∈ anns, ann.length = 1) ∧
      List.Sorted (fun u v => annScore v ≤ annScore u) anns ∧
      ([⟨0, 0, 1, qmul 2 1, qmul 2 1, qmul 1 1⟩] : List Row) =
        flattenRows 1 1 anns ∧
      ([⟨0, 0, 1, qmul 2 1, qmul 2 1, qmul 1 1⟩] : List Row).length =
        anns.length * 1 ∧
      (∀ a j, a < anns.length → j < 1 →
        ([⟨0, 0, 1, qmul 2 1, qmul 2 1, qmul 1 1⟩] : List Row).get? (a * 1 + j) =
          some ⟨a, j, ((anns.getD a []).getD j defaultJoint).v,
            qmul ((anns.getD a []).getD j defaultJoint).x ((1 : ℕ) : ℚ),
            qmul ((anns.getD a []).getD j defaultJoint).y ((1 : ℕ) : ℚ),
            qmul ((anns.getD a []).getD j defaultJoint).s ((1 : ℕ) : ℚ)⟩) :=
  call_output_format ⟨false, 0, 0, false, false, 0⟩ 1 [] ⟨1, [(0, ⟨1, 2, 2, 1⟩)]⟩
    1 ⟨0, fun _ => []⟩ 1 _ (by decide)

/-- C10: a default-constructed `Joint` (the "not yet found" sentinel) has all
four fields zero — in particular its scale `s` is `0`, not strictly positive as
the data model's `s > 0` constraint would require. -/
theorem default_joint_all_zero :
    defaultJoint.v = 0 ∧ defaultJoint.x = 0 ∧ defaultJoint.y = 0 ∧
      defaultJoint.s = 0 ∧ ¬ 0 < defaultJoint.s := by
  refine ⟨rfl, rfl, rfl, rfl, ?_⟩
  simp [defaultJoint]

/-- C5: popping a non-empty frontier removes an entry that is greatest w.r.t.
`frontier_compare` (max-priority first): the popped entry `e` together with the
remainder is a permutation of the queue, and no member of the queue compares
above `e`. -/
theorem frontier_pop_is_max {q : List FrontierEntry} {e : FrontierEntry}
    {rest : List FrontierEntry} (h : popMax q = some (e, rest)) :
    q.Perm (e :: rest) ∧ ∀ f ∈ q, frontier_compare e f = false := by
  refine ⟨popMax_perm h, fun f hf => ?_⟩
  have := popMax_max h f hf
  simp [frontier_compare, not_lt.mpr this]

/-- Witness for C5 at a concrete three-entry queue. -/
theorem frontier_pop_is_max_witness :
    popMax [⟨1, defaultJoint, 0, 1⟩, ⟨3, defaultJoint, 1, 2⟩, ⟨2, defaultJoint, 2, 0⟩]
        = some (⟨3, defaultJoint, 1, 2⟩,
                [⟨1, defaultJoint, 0, 1⟩, ⟨2, defaultJoint, 2, 0⟩]) ∧
    ([⟨1, defaultJoint, 0, 1⟩, ⟨3, defaultJoint, 1, 2⟩, ⟨2, defaultJoint, 2, 0⟩] :
        List FrontierEntry).Perm
      (⟨3, defaultJoint, 1, 2⟩ ::
        [⟨1, defaultJoint, 0, 1⟩, ⟨2, defaultJoint, 2, 0⟩]) ∧
    ∀ f ∈ [(⟨1, defaultJoint, 0, 1⟩ : FrontierEntry), ⟨3, defaultJoint, 1, 2⟩,
            ⟨2, defaultJoint, 2, 0⟩],
      frontier_compare ⟨3, defaultJoint, 1, 2⟩ f = false := by
  have hpop : popMax [⟨1, defaultJoint, 0, 1⟩, ⟨3, defaultJoint, 1, 2⟩,
      ⟨2, defaultJoint, 2, 0⟩]
      = some (⟨3, defaultJoint, 1, 2⟩,
              [⟨1, defaultJoint, 0, 1⟩, ⟨2, defaultJoint, 2, 0⟩]) := by
    decide
  have h := frontier_pop_is_max hpop
  exact ⟨hpop, h.1, h.2⟩

end OpenPifPaf
